import Mathlib

/-!
Shallow embedding of the birthday-document parser of the
HTML-Birthday-Generator repository (file `app.py`, with the older
iteration `birthday_flask_app.py` sharing the HTML generator shape).
Python strings are modelled as `List Char`, a paragraph as a `Line`
record carrying its text and the bold state of its leading run, and the
Python dict of groups as an insertion-ordered association list.
-/

/-- Whitespace characters recognised by Python `str.split()` / `str.strip()`. -/
def wsChars : List Char :=
  [' ', '\t', '\n', '\r', '\x0B', '\x0C',
   '\x1C', '\x1D', '\x1E', '\x1F', '\u0085', '\u00A0',
   '\u1680', '\u2000', '\u2001', '\u2002', '\u2003', '\u2004', '\u2005',
   '\u2006', '\u2007', '\u2008', '\u2009', '\u200A',
   '\u2028', '\u2029', '\u202F', '\u205F', '\u3000']

def pyIsSpace (c : Char) : Bool := wsChars.contains c

/-- The characters of the module constant `INVISIBLE`: zero-width space,
zero-width non-joiner, zero-width joiner, byte-order mark and no-break
space (U+200B, U+200C, U+200D, U+FEFF, U+00A0). -/
def invisibleChars : List Char := ['\u200B', '\u200C', '\u200D', '\uFEFF', '\u00A0']

def isInvisible (c : Char) : Bool := invisibleChars.contains c

/-- A character matched by `\w` (word character): alphanumeric or underscore
(the months and digits the parser cares about are ASCII). -/
def isWordChar (c : Char) : Bool := c.isAlphanum || c == '_'

/-- Model of `INVISIBLE.sub(' ', text)`: each maximal run of invisible
characters is replaced by a single space.  The boolean argument records
whether the previous character belonged to such a run. -/
def collapseInvAux : Bool → List Char → List Char
  | _, [] => []
  | inRun, c :: cs =>
    if isInvisible c then
      if inRun then collapseInvAux true cs else ' ' :: collapseInvAux true cs
    else c :: collapseInvAux false cs

def collapseInvisible (l : List Char) : List Char := collapseInvAux false l

/-- Model of Python `str.split()` (no argument): the list of maximal runs of
non-whitespace characters.  `acc` is the reversed token in progress. -/
def wordsAux : List Char → List Char → List (List Char)
  | [], acc => if acc.isEmpty then [] else [acc.reverse]
  | c :: cs, acc =>
    if pyIsSpace c then
      if acc.isEmpty then wordsAux cs [] else acc.reverse :: wordsAux cs []
    else wordsAux cs (c :: acc)

def wordsOf (l : List Char) : List (List Char) := wordsAux l []

/-- Model of `sep.join(xs)`. -/
def pyJoin (sep : List Char) : List (List Char) → List Char
  | [] => []
  | [x] => x
  | x :: y :: rest => x ++ sep ++ pyJoin sep (y :: rest)

/-- Model of Python `str.strip()` (strip whitespace at both ends). -/
def pyStrip (l : List Char) : List Char :=
  ((l.dropWhile pyIsSpace).reverse.dropWhile pyIsSpace).reverse

/-- Model of Python `str.lstrip()`. -/
def pyLStrip (l : List Char) : List Char := l.dropWhile pyIsSpace

/-- Model of Python `str.lower()` (the parser only compares ASCII month names). -/
def pyLower (l : List Char) : List Char := l.map Char.toLower

/-- Model of the strip of dots and commas: remove them at both ends. -/
def stripCommaDot (l : List Char) : List Char :=
  ((l.dropWhile (fun c => c == '.' || c == ',')).reverse.dropWhile
      (fun c => c == '.' || c == ',')).reverse

/-- Model of `_normalize`: collapse invisible-character runs to a space,
collapse all whitespace runs to single spaces (`' '.join(t.split())`),
and strip the ends. -/
def normalizeText (text : List Char) : List Char :=
  if text.isEmpty then []
  else pyStrip (pyJoin [' '] (wordsOf (collapseInvisible text)))

/-- The twelve full month names (lowercased; the source stores them
capitalized and matches case-insensitively). -/
def MONTH_NAMES : List (List Char) :=
  ["january".toList, "february".toList, "march".toList, "april".toList,
   "may".toList, "june".toList, "july".toList, "august".toList,
   "september".toList, "october".toList, "november".toList, "december".toList]

/-- The month abbreviations (lowercased). -/
def MONTH_ABBREV : List (List Char) :=
  ["jan".toList, "feb".toList, "mar".toList, "apr".toList, "may".toList,
   "jun".toList, "jul".toList, "aug".toList, "sep".toList, "sept".toList,
   "oct".toList, "nov".toList, "dec".toList]

/-- All months, in the alternation order of `MONTH_PATTERN` (full names first,
then abbreviations); the same contents serve as `MONTH_SET` and
`MONTH_PREFIXES`, which the source builds from the same two tuples. -/
def MONTH_ALTS : List (List Char) := MONTH_NAMES ++ MONTH_ABBREV

/-- The character replacement of `re.sub(r'[^\w\s]', ' ', text)`: every
character that is neither a word character nor whitespace becomes a space. -/
def subNonWord (text : List Char) : List Char :=
  text.map (fun c => if isWordChar c || pyIsSpace c then c else ' ')

/-- The token list used by `_is_date_line` and by the label builders: the
source substitutes pattern `[^\w\s]` by a space, joins the split tokens
with single spaces and splits again.  Joining tokens with single spaces
and splitting again yields the same tokens, so the model tokenizes the
substituted text directly. -/
def subTokens (text : List Char) : List (List Char) :=
  wordsOf (subNonWord text)

/-- Model of `_is_date_line`: first token (lowercased) is a month and the
second token, stripped of dots and commas, is one or two digits. -/
def is_date_line (text : List Char) : Bool :=
  match subTokens text with
  | t0 :: t1 :: _ =>
    let first := pyLower t0
    let second := stripCommaDot t1
    MONTH_ALTS.contains first && !second.isEmpty &&
      second.all Char.isDigit && second.length ≤ 2
  | _ => false

/-- The display label built inside `_is_date_line_simple`:
the join of the first token, a space, and the second token stripped of dots
and commas, when the substituted text has at least two
tokens, else `_normalize(text)`. -/
def simpleLabel (text : List Char) : List Char :=
  match subTokens text with
  | t0 :: t1 :: _ => t0 ++ ' ' :: stripCommaDot t1
  | _ => normalizeText text

/-- The label built in the `_is_date_line` branch of `parse_birthday_document`:
same token pair, but the fallback for fewer than two tokens is `text` itself. -/
def tokenLabel (text : List Char) : List Char :=
  match subTokens text with
  | t0 :: t1 :: _ => t0 ++ ' ' :: stripCommaDot t1
  | _ => text

/-- The month loop of `_is_date_line_simple` over the lowercased normalized
text `t`: find a month such that `t` starts with the month followed by a
space and, after `lstrip`, a digit follows.  The source also extracts a
one-or-two-digit `day` variable at this point but never uses it for the
returned label, which is built from `text` alone. -/
def simpleLoop (months : List (List Char)) (t text : List Char) : Option (List Char) :=
  match months with
  | [] => none
  | m :: ms =>
    if (m ++ [' ']).isPrefixOf t then
      match (t.drop (m.length + 1)).dropWhile pyIsSpace with
      | [] => simpleLoop ms t text
      | c :: _ => if c.isDigit then some (simpleLabel text) else simpleLoop ms t text
    else simpleLoop ms t text

/-- Model of `_is_date_line_simple`: returns `(is_date, date_label)`. -/
def is_date_line_simple (text : List Char) : Bool × Option (List Char) :=
  let t := pyLower (normalizeText text)
  if t.isEmpty then (false, none)
  else
    match simpleLoop MONTH_ALTS t text with
    | some l => (true, some l)
    | none => (false, none)

/-- Tail pattern `\s*\**$`: only whitespace followed by asterisks up to the end. -/
def tailEnd (l : List Char) : Bool :=
  ((l.dropWhile pyIsSpace).dropWhile (fun c => c == '*')).isEmpty

/-- Exactly four digits here (`\d{4}` matches the next four characters). -/
def fourDigits (l : List Char) : Bool :=
  match l with
  | a :: b :: c :: d :: _ => a.isDigit && b.isDigit && c.isDigit && d.isDigit
  | _ => false

/-- Pattern `\d{4}\s*\**$` at this position. -/
def fourDigitsEnd (l : List Char) : Bool :=
  match l with
  | a :: b :: c :: d :: r => a.isDigit && b.isDigit && c.isDigit && d.isDigit && tailEnd r
  | _ => false

/-- Pattern `\s*[,.]?\s*\d{4}\s*\**$` at this position, with the regex backtracking
on the optional comma/dot (taking it greedily, retrying without it). -/
def yearThenEnd (l : List Char) : Bool :=
  match l.dropWhile pyIsSpace with
  | c :: r =>
    if c == ',' || c == '.' then
      fourDigitsEnd (r.dropWhile pyIsSpace) || fourDigitsEnd (c :: r)
    else fourDigitsEnd (c :: r)
  | [] => false

/-- Pattern `\d{1,2}(?:\s*[,.]?\s*\d{4})?\s*\**$` at this position: the day takes
two digits greedily, backtracking to one; the year group is optional. -/
def dayEnd (l : List Char) : Bool :=
  match l with
  | d1 :: r =>
    d1.isDigit &&
      (match r with
       | d2 :: r2 => (d2.isDigit && (yearThenEnd r2 || tailEnd r2)) ||
           yearThenEnd r || tailEnd r
       | [] => true)
  | [] => false

/-- Model of `DATE_PATTERN.match(text)` as a boolean:
`^\**\s*(MONTH)\s+\d{1,2}(?:\s*[,.]?\s*\d{4})?\s*\**$`, case-insensitive,
alternatives tried in `MONTH_PATTERN` order. -/
def matchDatePattern (text : List Char) : Bool :=
  let b := (text.dropWhile (fun c => c == '*')).dropWhile pyIsSpace
  MONTH_ALTS.any (fun m =>
    m.isPrefixOf (pyLower b) &&
      (let r := b.drop m.length
       match r with
       | c :: _ => pyIsSpace c && dayEnd (r.dropWhile pyIsSpace)
       | [] => false))

/-- The greedy optional year group `(?:\s*[,.]?\s*\d{4})?` of
`DATE_PATTERN_START`: the characters it consumes, or `[]` when it matches
empty.  Nothing follows it in the pattern, so greedy matching is final. -/
def yearGreedy (l : List Char) : List Char :=
  let a := l.takeWhile pyIsSpace
  match l.dropWhile pyIsSpace with
  | c :: r2 =>
    if c == ',' || c == '.' then
      if fourDigits (r2.dropWhile pyIsSpace) then
        a ++ c :: (r2.takeWhile pyIsSpace ++ (r2.dropWhile pyIsSpace).take 4)
      else []
    else if fourDigits (c :: r2) then a ++ (c :: r2).take 4 else []
  | [] => []

/-- The day-and-year tail of `DATE_PATTERN_START`: `\d{1,2}(?:\s*[,.]?\s*\d{4})?`
matched at `rest`, with `pre` the part of `group(0)` already consumed.
The day takes two digits greedily, one otherwise; the year group is
greedy-optional (see `yearGreedy`). -/
def startDay (pre rest : List Char) : Option (List Char) :=
  match rest with
  | d1 :: r5 =>
    if d1.isDigit then
      match r5 with
      | d2 :: r6 =>
        if d2.isDigit then some (pre ++ d1 :: d2 :: yearGreedy r6)
        else some (pre ++ d1 :: yearGreedy r5)
      | [] => some (pre ++ [d1])
    else none
  | [] => none

/-- Model of `DATE_PATTERN_START.match(text)`, returning `group(0)` (the
matched prefix) on success: `^\s*\**\s*(MONTH)\s+\d{1,2}(?:\s*[,.]?\s*\d{4})?`,
case-insensitive.  Leading whitespace/asterisk runs are deterministic;
month alternatives are tried in pattern order; the day and year are
matched by `startDay` after the mandatory whitespace run. -/
def matchStart (text : List Char) : Option (List Char) :=
  let ws0 := text.takeWhile pyIsSpace
  let r0 := text.dropWhile pyIsSpace
  let stars := r0.takeWhile (fun c => c == '*')
  let r1 := r0.dropWhile (fun c => c == '*')
  let ws1 := r1.takeWhile pyIsSpace
  let r2 := r1.dropWhile pyIsSpace
  MONTH_ALTS.findSome? (fun m =>
    if m.isPrefixOf (pyLower r2) then
      let monthChars := r2.take m.length
      let r3 := r2.drop m.length
      let wsr := r3.takeWhile pyIsSpace
      let r4 := r3.dropWhile pyIsSpace
      if wsr.isEmpty then none
      else startDay (ws0 ++ stars ++ ws1 ++ monthChars ++ wsr) r4
    else none)

/-- Model of the substitution of pattern `^\s*\*+\s*|\s*\*+$` by nothing: remove a leading run of
whitespace, asterisks and following whitespace (only when at least one
asterisk is present), and a trailing run of asterisks together with the
whitespace immediately before it. -/
def subStripStars (l : List Char) : List Char :=
  let a := l.dropWhile pyIsSpace
  let s1 := if a.head? = some '*' then
      (a.dropWhile (fun c => c == '*')).dropWhile pyIsSpace
    else l
  let r := s1.reverse
  if r.head? = some '*' then
    ((r.dropWhile (fun c => c == '*')).dropWhile pyIsSpace).reverse
  else s1

/-- Group 1 of the match of pattern `\**(.*?)\**` against the text.  The match always
succeeds: `\**` greedily consumes the leading asterisks, the lazy group
`(.*?)` then matches as few characters as possible — zero, because the
following `\**` and the end of the pattern accept the empty string — so
the captured group is always the empty string, whatever `text` is. -/
def boldGroup1 (_text : List Char) : List Char := []

/-- Bold state of the first run of a paragraph: no runs at all, or
`runs[0].bold` being `True`, `False` or `None` (unset, inherited). -/
inductive BoldState where
  | noRuns | boldTrue | boldFalse | boldNone
deriving DecidableEq, Repr

/-- A document line as the parser sees it: raw paragraph text plus the bold
state of its leading run. -/
structure Line where
  text : List Char
  bold : BoldState
deriving DecidableEq, Repr

/-- Model of `para.runs and para.runs[0].bold is not False`: truthy iff the
paragraph has runs and the bold flag of the first run is not `False`. -/
def firstRunBold (line : Line) : Bool :=
  match line.bold with
  | .noRuns => false
  | .boldFalse => false
  | .boldTrue => true
  | .boldNone => true

/-- The label extracted for a date line in the non-simple branch of pass 1.
When the leading run is bold the match of pattern `\**(.*?)\**` is
always truthy and its group 1 is always empty (see `boldGroup1`), so that
branch always yields `_normalize('') = ''`. -/
def classifyLabel (line : Line) (text : List Char) : List Char :=
  if firstRunBold line then normalizeText (boldGroup1 text)
  else if is_date_line text then tokenLabel text
  else
    match matchStart text with
    | some g0 => pyStrip (subStripStars g0)
    | none => text

/-- A classified item of pass 1: the normalized text together with
`some label` for a date line and `none` for a name line. -/
abbrev Item := List Char × Option (List Char)

/-- Pass 1 of `parse_birthday_document` for a single paragraph: normalize,
skip blank lines, try `_is_date_line_simple`, then the bold test and the
three remaining date heuristics; a date line is kept only when its label
is non-empty (`if label:`), otherwise it is silently skipped; any other
line is a name line.  Returns `none` when the line produces no item. -/
def classifyItem (line : Line) : Option Item :=
  let text := normalizeText line.text
  if text.isEmpty then none
  else
    let s := is_date_line_simple text
    if s.1 && !((s.2.getD []).isEmpty) then some (text, some (s.2.getD []))
    else
      if firstRunBold line || matchDatePattern text || (matchStart text).isSome ||
          is_date_line text then
        let label := classifyLabel line text
        if label.isEmpty then none else some (text, some label)
      else some (text, none)

/-- The grouped result: a Python dict as an insertion-ordered association
list from date label to name list. -/
abbrev PyDict := List (List Char × List (List Char))

def keys (d : PyDict) : List (List Char) := d.map (fun p => p.1)

/-- Python dict assignment `d[k] = v`: replace in place when the key exists,
else append at the end (insertion order is preserved). -/
def dictSet (d : PyDict) (k : List Char) (v : List (List Char)) : PyDict :=
  if k ∈ keys d then d.map (fun p => if p.1 = k then (p.1, v) else p)
  else d ++ [(k, v)]

/-- Python `d[k]` lookup (the parser only reads keys it has created). -/
def dictGet (d : PyDict) (k : List Char) : List (List Char) :=
  match d.find? (fun p => p.1 == k) with
  | some p => p.2
  | none => []

/-- Python `d[k].append(x)`. -/
def dictAppend (d : PyDict) (k : List Char) (x : List Char) : PyDict :=
  d.map (fun p => if p.1 = k then (p.1, p.2 ++ [x]) else p)

/-- Python `d[k].extend(xs)`. -/
def dictExtend (d : PyDict) (k : List Char) (xs : List (List Char)) : PyDict :=
  d.map (fun p => if p.1 = k then (p.1, p.2 ++ xs) else p)

/-- The mutable state of pass 2: the dict under construction, the current
date label, and the staging buffer of leading name lines. -/
structure PState where
  birthdays : PyDict
  current : Option (List Char)
  leading : List (List Char)
deriving Repr

/-- One step of pass 2: a date item assigns `birthdays[label] = list(leading)`,
clears the buffer and becomes current; a name item is appended to the
current group, or staged when no date has been seen yet. -/
def step (st : PState) (item : Item) : PState :=
  match item.2 with
  | some l => ⟨dictSet st.birthdays l st.leading, some l, []⟩
  | none =>
    match st.current with
    | some c => ⟨dictAppend st.birthdays c item.1, st.current, st.leading⟩
    | none => ⟨st.birthdays, none, st.leading ++ [item.1]⟩

/-- Pass 2 of `parse_birthday_document`, including the final flush of a
non-empty staging buffer into the current group. -/
def pass2 (items : List Item) : PyDict :=
  let st := items.foldl step ⟨[], none, []⟩
  if !st.leading.isEmpty && st.current.isSome then
    dictExtend st.birthdays (st.current.getD []) st.leading
  else st.birthdays

/-- Model of `parse_birthday_document` on the extracted line sequence. -/
def parse_birthday_document (lines : List Line) : PyDict :=
  pass2 (lines.filterMap classifyItem)

/-- The fixed message `generate_html` returns for an empty result. -/
def noDataMessage : List Char :=
  ("<p class=\"text-muted\">No birthday data found. Use bold dates (e.g. " ++
   "<strong>September 8</strong>) or lines like \"September 8\" with names " ++
   "listed below each date.</p>").toList

/-- One card of the generated HTML (the f-string of the inner loop). -/
def card (bd : PyDict) (date : List Char) : List Char :=
  "  <div class=\"col-md-3\">\n    <h3>".toList ++ date ++
    "<br/></h3>\n    <p>".toList ++
    pyJoin " <br/> ".toList (dictGet bd date) ++
    "</p>\n  </div>".toList

def rowOpen : List Char := "<div class=\"row\">".toList
def rowClose : List Char := "</div>".toList

/-- The `html_parts` list built by the row loop of `generate_html`: the
dates are processed in groups of four, each group contributing the row
opener, one card per date, and the row closer. -/
def buildParts (bd : PyDict) : List (List Char) → List (List Char)
  | [] => []
  | [a] => rowOpen :: [card bd a, rowClose]
  | [a, b] => rowOpen :: [card bd a, card bd b, rowClose]
  | [a, b, c] => rowOpen :: [card bd a, card bd b, card bd c, rowClose]
  | a :: b :: c :: d :: rest =>
    rowOpen :: card bd a :: card bd b :: card bd c :: card bd d :: rowClose ::
      buildParts bd rest

/-- Model of `generate_html` (`app.py`): drop empty date keys, emit the fixed
message when nothing remains, else join the row parts with newlines. -/
def generate_html (bd : PyDict) : List Char :=
  let dates := (keys bd).filter (fun d => !d.isEmpty)
  if dates.isEmpty then noDataMessage
  else pyJoin ['\n'] (buildParts bd dates)

/-- Model of the title derivation of `upload_file`:
`f"{dates[0]} - {dates[-1]} Birthdays"` over the non-empty keys, or the
literal `"Birthdays"` when none remain. -/
def deriveTitle (bd : PyDict) : List Char :=
  let dates := (keys bd).filter (fun d => !d.isEmpty)
  match dates with
  | [] => "Birthdays".toList
  | d :: rest => d ++ " - ".toList ++ (d :: rest).getLastD d ++ " Birthdays".toList

/-- Chunks of four, written independently of `buildParts` for the output
contract: the generator rows partition the date list four at a time. -/
def chunk4 {α : Type} : List α → List (List α)
  | [] => []
  | [a] => [[a]]
  | [a, b] => [[a, b]]
  | [a, b, c] => [[a, b, c]]
  | a :: b :: c :: d :: rest => [a, b, c, d] :: chunk4 rest

/-- The parts one chunk of dates contributes to `html_parts`. -/
def rowParts (bd : PyDict) (chunk : List (List Char)) : List (List Char) :=
  rowOpen :: (chunk.map (card bd) ++ [rowClose])

/-- No two consecutive whitespace characters occur in the list. -/
def noDoubleWs : List Char → Bool
  | a :: b :: rest => !(pyIsSpace a && pyIsSpace b) && noDoubleWs (b :: rest)
  | _ => true

/-! ### Generic list lemmas -/

theorem mem_dropWhile {p : Char → Bool} {c : Char} {l : List Char}
    (hc : c ∈ l) (hp : p c = false) : c ∈ l.dropWhile p := by
  induction l with
  | nil => cases hc
  | cons a l ih =>
    rw [List.dropWhile_cons]
    rcases List.mem_cons.mp hc with rfl | hmem
    · rw [hp]; simp
    · split
      · exact ih hmem
      · exact List.mem_cons_of_mem _ hmem

theorem isPrefixOf_append_self : ∀ (p l : List Char), p.isPrefixOf (p ++ l) = true
  | [], _ => by simp [List.isPrefixOf]
  | a :: p, l => by
    simp only [List.cons_append, List.isPrefixOf, beq_self_eq_true, Bool.true_and]
    exact isPrefixOf_append_self p l

/-! ### Dictionary lemmas -/

theorem keys_cons (p : List Char × List (List Char)) (d : PyDict) :
    keys (p :: d) = p.1 :: keys d := rfl

theorem dictGet_cons_eq {a : List Char} {w : List (List Char)} (d : PyDict)
    {k : List Char} (h : a = k) : dictGet ((a, w) :: d) k = w := by
  unfold dictGet
  rw [List.find?_cons_of_pos _ (by simp [h])]

theorem dictGet_cons_ne {a : List Char} {w : List (List Char)} (d : PyDict)
    {k : List Char} (h : a ≠ k) : dictGet ((a, w) :: d) k = dictGet d k := by
  unfold dictGet
  rw [List.find?_cons_of_neg _ (by simp [h])]

theorem dictAppend_eq_dictExtend (d : PyDict) (k : List Char) (x : List Char) :
    dictAppend d k x = dictExtend d k [x] := rfl

theorem keys_dictExtend (d : PyDict) (k : List Char) (xs : List (List Char)) :
    keys (dictExtend d k xs) = keys d := by
  unfold dictExtend keys
  rw [List.map_map]
  apply List.map_congr_left
  intro p _
  by_cases h : p.1 = k <;> simp [h]

theorem keys_dictSet_of_mem {d : PyDict} {k : List Char} (v : List (List Char))
    (h : k ∈ keys d) : keys (dictSet d k v) = keys d := by
  unfold dictSet
  rw [if_pos h]
  unfold keys
  rw [List.map_map]
  apply List.map_congr_left
  intro p _
  by_cases hp : p.1 = k <;> simp [hp]

theorem keys_dictSet_of_not_mem {d : PyDict} {k : List Char} (v : List (List Char))
    (h : k ∉ keys d) : keys (dictSet d k v) = keys d ++ [k] := by
  unfold dictSet
  rw [if_neg h]
  simp [keys]

theorem mem_keys_dictSet_self (d : PyDict) (k : List Char) (v : List (List Char)) :
    k ∈ keys (dictSet d k v) := by
  by_cases h : k ∈ keys d
  · rw [keys_dictSet_of_mem v h]; exact h
  · rw [keys_dictSet_of_not_mem v h]; simp

theorem dictGet_setMap_self {k : List Char} (v : List (List Char)) :
    ∀ {d : PyDict}, k ∈ keys d →
      dictGet (d.map (fun p => if p.1 = k then (p.1, v) else p)) k = v := by
  intro d
  induction d with
  | nil => intro h; cases h
  | cons p d ih =>
    obtain ⟨a, w⟩ := p
    intro hmem
    rw [List.map_cons]
    by_cases hp : a = k
    · rw [if_pos hp]
      exact dictGet_cons_eq _ hp
    · rw [if_neg hp, dictGet_cons_ne _ hp]
      apply ih
      rw [keys_cons] at hmem
      rcases List.mem_cons.mp hmem with h | h
      · exact absurd h.symm hp
      · exact h

theorem dictGet_setMap_ne {k k' : List Char} (v : List (List Char)) (h : k' ≠ k) :
    ∀ {d : PyDict},
      dictGet (d.map (fun p => if p.1 = k' then (p.1, v) else p)) k = dictGet d k := by
  intro d
  induction d with
  | nil => rfl
  | cons p d ih =>
    obtain ⟨a, w⟩ := p
    rw [List.map_cons]
    by_cases hp : a = k'
    · have hk : a ≠ k := by rw [hp]; exact h
      rw [if_pos hp, dictGet_cons_ne _ hk, dictGet_cons_ne _ hk]
      exact ih
    · rw [if_neg hp]
      by_cases hk : a = k
      · rw [dictGet_cons_eq _ hk, dictGet_cons_eq _ hk]
      · rw [dictGet_cons_ne _ hk, dictGet_cons_ne _ hk]
        exact ih

theorem dictGet_appendOne_self {k : List Char} (v : List (List Char)) :
    ∀ {d : PyDict}, k ∉ keys d → dictGet (d ++ [(k, v)]) k = v := by
  intro d
  induction d with
  | nil => intro _; exact dictGet_cons_eq _ rfl
  | cons p d ih =>
    obtain ⟨a, w⟩ := p
    intro hmem
    rw [keys_cons] at hmem
    have hp : a ≠ k := fun hc => hmem (by rw [hc]; exact List.mem_cons_self _ _)
    have h' : k ∉ keys d := fun hc => hmem (List.mem_cons_of_mem _ hc)
    rw [List.cons_append, dictGet_cons_ne _ hp]
    exact ih h'

theorem dictGet_appendOne_ne {k k' : List Char} (v : List (List Char)) (h : k' ≠ k) :
    ∀ {d : PyDict}, dictGet (d ++ [(k', v)]) k = dictGet d k := by
  intro d
  induction d with
  | nil => rw [List.nil_append, dictGet_cons_ne _ h]
  | cons p d ih =>
    obtain ⟨a, w⟩ := p
    rw [List.cons_append]
    by_cases hk : a = k
    · rw [dictGet_cons_eq _ hk, dictGet_cons_eq _ hk]
    · rw [dictGet_cons_ne _ hk, dictGet_cons_ne _ hk]
      exact ih

theorem dictGet_dictSet_self (d : PyDict) (k : List Char) (v : List (List Char)) :
    dictGet (dictSet d k v) k = v := by
  unfold dictSet
  split
  · next hmem => exact dictGet_setMap_self v hmem
  · next hmem => exact dictGet_appendOne_self v hmem

theorem dictGet_dictSet_ne (d : PyDict) {k k' : List Char} (v : List (List Char))
    (h : k' ≠ k) : dictGet (dictSet d k' v) k = dictGet d k := by
  unfold dictSet
  split
  · exact dictGet_setMap_ne v h
  · exact dictGet_appendOne_ne v h

theorem dictGet_dictExtend_ne (d : PyDict) {k k' : List Char} (xs : List (List Char))
    (h : k' ≠ k) : dictGet (dictExtend d k' xs) k = dictGet d k := by
  induction d with
  | nil => rfl
  | cons p d ih =>
    obtain ⟨a, w⟩ := p
    unfold dictExtend
    rw [List.map_cons]
    by_cases hp : a = k'
    · have hk : a ≠ k := by rw [hp]; exact h
      rw [if_pos hp, dictGet_cons_ne _ hk, dictGet_cons_ne _ hk]
      unfold dictExtend at ih
      exact ih
    · rw [if_neg hp]
      by_cases hk : a = k
      · rw [dictGet_cons_eq _ hk, dictGet_cons_eq _ hk]
      · rw [dictGet_cons_ne _ hk, dictGet_cons_ne _ hk]
        unfold dictExtend at ih
        exact ih

theorem dictGet_dictExtend_self {d : PyDict} {k : List Char} (xs : List (List Char))
    (h : k ∈ keys d) : dictGet (dictExtend d k xs) k = dictGet d k ++ xs := by
  induction d with
  | nil => cases h
  | cons p d ih =>
    obtain ⟨a, w⟩ := p
    unfold dictExtend
    rw [List.map_cons]
    by_cases hp : a = k
    · rw [if_pos hp, dictGet_cons_eq _ hp, dictGet_cons_eq _ hp]
    · rw [if_neg hp, dictGet_cons_ne _ hp, dictGet_cons_ne _ hp]
      rw [keys_cons] at h
      have h' : k ∈ keys d := by
        rcases List.mem_cons.mp h with hh | hh
        · exact absurd hh.symm hp
        · exact hh
      unfold dictExtend at ih
      exact ih h'

theorem dictExtend_of_not_mem (d : PyDict) {k : List Char} (xs : List (List Char))
    (h : k ∉ keys d) : dictExtend d k xs = d := by
  induction d with
  | nil => rfl
  | cons p d ih =>
    obtain ⟨a, w⟩ := p
    rw [keys_cons] at h
    have hp : a ≠ k := fun hc => h (by rw [hc]; exact List.mem_cons_self _ _)
    have h' : k ∉ keys d := fun hc => h (List.mem_cons_of_mem _ hc)
    unfold dictExtend
    rw [List.map_cons, if_neg hp]
    unfold dictExtend at ih
    rw [ih h']

theorem dictGet_dictExtend_exists (d : PyDict) (c l : List Char) (xs : List (List Char)) :
    ∃ ex, dictGet (dictExtend d c xs) l = dictGet d l ++ ex := by
  by_cases hcl : c = l
  · subst hcl
    by_cases hmem : c ∈ keys d
    · exact ⟨xs, dictGet_dictExtend_self xs hmem⟩
    · exact ⟨[], by rw [dictExtend_of_not_mem _ _ hmem, List.append_nil]⟩
  · exact ⟨[], by rw [dictGet_dictExtend_ne _ _ hcl, List.append_nil]⟩

/-! ### Pass-2 invariants -/

/-- Invariant of the grouping state: before the first date item the dict is
empty; afterwards the current label is a key of the dict and the staging
buffer is empty (it is cleared by the first date and only refilled while
no date has been seen). -/
def GoodState (st : PState) : Prop :=
  (st.current = none ∧ st.birthdays = []) ∨
    (∃ c, st.current = some c ∧ st.leading = [] ∧ c ∈ keys st.birthdays)

theorem goodState_init : GoodState ⟨[], none, []⟩ := Or.inl ⟨rfl, rfl⟩

theorem goodState_step (st : PState) (it : Item) (h : GoodState st) :
    GoodState (step st it) := by
  obtain ⟨t, lab⟩ := it
  cases lab with
  | some l => exact Or.inr ⟨l, rfl, rfl, mem_keys_dictSet_self _ _ _⟩
  | none =>
    rcases h with ⟨hc, hb⟩ | ⟨c, hc, hl, hk⟩
    · rw [show step st (t, none) = ⟨st.birthdays, none, st.leading ++ [t]⟩ from by
        simp [step, hc]]
      exact Or.inl ⟨rfl, hb⟩
    · rw [show step st (t, none) = ⟨dictAppend st.birthdays c t, st.current, st.leading⟩ from by
        simp [step, hc]]
      refine Or.inr ⟨c, hc, hl, ?_⟩
      rw [dictAppend_eq_dictExtend, keys_dictExtend]
      exact hk

theorem goodState_foldl (items : List Item) :
    ∀ st, GoodState st → GoodState (items.foldl step st) := by
  induction items with
  | nil => intro st h; exact h
  | cons it items ih => intro st h; exact ih _ (goodState_step st it h)

theorem pass2_eq_birthdays_of_leading_nil (items : List Item)
    (h : (items.foldl step ⟨[], none, []⟩).leading = []) :
    pass2 items = (items.foldl step ⟨[], none, []⟩).birthdays := by
  simp only [pass2]
  rw [h]
  simp

theorem pass2_eq_birthdays_of_current_none (items : List Item)
    (h : (items.foldl step ⟨[], none, []⟩).current = none) :
    pass2 items = (items.foldl step ⟨[], none, []⟩).birthdays := by
  simp only [pass2]
  rw [h]
  simp

theorem pass2_append_date (items : List Item) (t l : List Char) :
    pass2 (items ++ [(t, some l)]) =
      dictSet (items.foldl step ⟨[], none, []⟩).birthdays l
        (items.foldl step ⟨[], none, []⟩).leading := by
  simp only [pass2, List.foldl_append]
  simp [List.foldl, step]

/-- Claim C4: when a date label that is already a key of the mapping is
classified again, the grouper overwrites that key with a fresh empty group
(the staging buffer is necessarily empty once any date has been seen), and
the key list — hence the absence of duplicates and the insertion order —
is unchanged. -/
theorem C4_duplicate_label_resets_group (items : List Item) (t l : List Char)
    (h : l ∈ keys (pass2 items)) :
    dictGet (pass2 (items ++ [(t, some l)])) l = [] ∧
      keys (pass2 (items ++ [(t, some l)])) = keys (pass2 items) := by
  have hst := goodState_foldl items ⟨[], none, []⟩ goodState_init
  rcases hst with ⟨hc, hb⟩ | ⟨c, hc, hl, _⟩
  · rw [pass2_eq_birthdays_of_current_none items hc, hb] at h
    cases h
  · have hpass : pass2 items = (items.foldl step ⟨[], none, []⟩).birthdays :=
      pass2_eq_birthdays_of_leading_nil items hl
    rw [hpass] at h ⊢
    rw [pass2_append_date, hl]
    exact ⟨dictGet_dictSet_self _ _ _, keys_dictSet_of_mem _ h⟩

/-- Witness for C4 at a concrete input: after `September 8 → [Alice]`, a
second `September 8` heading leaves a single empty group. -/
theorem C4_duplicate_label_resets_group_witness :
    "September 8".toList ∈
        keys (pass2 [("September 8".toList, some "September 8".toList),
                     ("Alice".toList, none)]) ∧
      dictGet (pass2 ([("September 8".toList, some "September 8".toList),
            ("Alice".toList, none)] ++
          [("September 8".toList, some "September 8".toList)]))
          "September 8".toList = [] ∧
        keys (pass2 ([("September 8".toList, some "September 8".toList),
              ("Alice".toList, none)] ++
            [("September 8".toList, some "September 8".toList)])) =
          keys (pass2 [("September 8".toList, some "September 8".toList),
                       ("Alice".toList, none)]) :=
  ⟨by decide, C4_duplicate_label_resets_group _ _ _ (by decide)⟩

theorem step_preserves_group (st : PState) (it : Item) (l : List Char)
    (h : it.2 ≠ some l) :
    ∃ ex, dictGet (step st it).birthdays l = dictGet st.birthdays l ++ ex := by
  obtain ⟨t, lab⟩ := it
  cases lab with
  | some l' =>
    have hne : l' ≠ l := fun hc => h (by simp [hc])
    refine ⟨[], ?_⟩
    have hb : (step st (t, some l')).birthdays = dictSet st.birthdays l' st.leading := by
      simp [step]
    rw [hb, dictGet_dictSet_ne _ _ hne, List.append_nil]
  | none =>
    cases hcur : st.current with
    | none =>
      refine ⟨[], ?_⟩
      have hb : (step st (t, none)).birthdays = st.birthdays := by simp [step, hcur]
      rw [hb, List.append_nil]
    | some c =>
      have hb : (step st (t, none)).birthdays = dictExtend st.birthdays c [t] := by
        simp [step, hcur, dictAppend_eq_dictExtend]
      rw [hb]
      exact dictGet_dictExtend_exists _ _ _ _

theorem foldl_preserves_group (rest : List Item) :
    ∀ (st : PState) (l : List Char), (∀ q ∈ rest, q.2 ≠ some l) →
      ∃ ex, dictGet (rest.foldl step st).birthdays l = dictGet st.birthdays l ++ ex := by
  induction rest with
  | nil => intro st l _; exact ⟨[], by simp⟩
  | cons q rest ih =>
    intro st l hall
    rw [List.foldl_cons]
    obtain ⟨ex1, hex1⟩ := step_preserves_group st q l
      (hall q (List.mem_cons_self _ _))
    obtain ⟨ex2, hex2⟩ :=
      ih (step st q) l (fun q' hq' => hall q' (List.mem_cons_of_mem _ hq'))
    exact ⟨ex1 ++ ex2, by rw [hex2, hex1, List.append_assoc]⟩

theorem foldl_names_staged (pre : List Item) :
    ∀ (acc : List (List Char)), (∀ p ∈ pre, p.2 = none) →
      pre.foldl step ⟨[], none, acc⟩ = ⟨[], none, acc ++ pre.map Prod.fst⟩ := by
  induction pre with
  | nil => intro acc _; simp
  | cons it pre ih =>
    intro acc hall
    obtain ⟨t, lab⟩ := it
    have h2 : lab = none := hall (t, lab) (List.mem_cons_self _ _)
    subst h2
    rw [List.foldl_cons,
      show step ⟨[], none, acc⟩ (t, none) = ⟨[], none, acc ++ [t]⟩ from by simp [step],
      ih _ (fun p hp => hall p (List.mem_cons_of_mem _ hp))]
    simp

/-- Claim C3 counterexample, two concrete inputs.  With lines
`Dana, April 1, September 2`, "Dana" ends in the group of the first
heading `April 1`, while the last opened group `September 2` stays empty —
names staged before the first date do not attach to the last group.  And
with lines `Dana, April 1, April 1`, the recurring first label discards
the staged name entirely, so such names can even be lost. -/
theorem C3_counterexample :
    (dictGet (parse_birthday_document
        [⟨"Dana".toList, .noRuns⟩, ⟨"April 1".toList, .noRuns⟩,
         ⟨"September 2".toList, .noRuns⟩]) "September 2".toList = [] ∧
      dictGet (parse_birthday_document
        [⟨"Dana".toList, .noRuns⟩, ⟨"April 1".toList, .noRuns⟩,
         ⟨"September 2".toList, .noRuns⟩]) "April 1".toList = ["Dana".toList]) ∧
    parse_birthday_document
        [⟨"Dana".toList, .noRuns⟩, ⟨"April 1".toList, .noRuns⟩,
         ⟨"April 1".toList, .noRuns⟩] = [("April 1".toList, [])] := by
  decide

/-- Claim C3 (amended): in a classified item sequence consisting of name
items, then a first date item with label `l`, then a tail in which `l`
never recurs as a date label, every staged name line surfaces in the group
of that FIRST date heading (at the front of its name list, in order) —
they attach to the first opened group, not the last, and they survive only
as long as the first label is not re-opened. -/
theorem C3_leading_names_attach_to_first_group
    (pre rest : List Item) (t l : List Char)
    (hpre : ∀ p ∈ pre, p.2 = none)
    (hrest : ∀ q ∈ rest, q.2 ≠ some l) :
    ∃ ex, dictGet (pass2 (pre ++ (t, some l) :: rest)) l = pre.map Prod.fst ++ ex := by
  simp only [pass2]
  rw [show pre ++ (t, some l) :: rest = (pre ++ [(t, some l)]) ++ rest from by simp,
    List.foldl_append, List.foldl_append, foldl_names_staged pre [] hpre]
  have hstep : List.foldl step ⟨[], none, [] ++ pre.map Prod.fst⟩ [(t, some l)] =
      ⟨[(l, pre.map Prod.fst)], some l, []⟩ := by
    simp [List.foldl, step, dictSet, keys]
  rw [hstep]
  obtain ⟨ex1, hex1⟩ := foldl_preserves_group rest ⟨[(l, pre.map Prod.fst)], some l, []⟩ l hrest
  split
  · obtain ⟨ex2, hex2⟩ := dictGet_dictExtend_exists
      (List.foldl step ⟨[(l, pre.map Prod.fst)], some l, []⟩ rest).birthdays
      ((List.foldl step ⟨[(l, pre.map Prod.fst)], some l, []⟩ rest).current.getD [])
      l (List.foldl step ⟨[(l, pre.map Prod.fst)], some l, []⟩ rest).leading
    refine ⟨ex1 ++ ex2, ?_⟩
    rw [hex2, hex1, dictGet_cons_eq _ rfl, List.append_assoc]
  · refine ⟨ex1, ?_⟩
    rw [hex1, dictGet_cons_eq _ rfl]

/-- Witness for C3 (amended) at a concrete input:
`Dana (name), April 1 (date), Eve (name)` puts "Dana" at the front of the
`April 1` group. -/
theorem C3_leading_names_attach_to_first_group_witness :
    (∀ p ∈ ([("Dana".toList, none)] : List Item), p.2 = none) ∧
      (∀ q ∈ ([("Eve".toList, none)] : List Item), q.2 ≠ some "April 1".toList) ∧
      ∃ ex, dictGet (pass2 ([("Dana".toList, none)] ++
          ("April 1".toList, some "April 1".toList) :: [("Eve".toList, none)]))
          "April 1".toList = ["Dana".toList] ++ ex :=
  ⟨by decide, by decide,
    C3_leading_names_attach_to_first_group _ _ _ _ (by decide) (by decide)⟩

/-- Claim C1: Scenario A.  On the five plain lines, the parser produces the
ordered two-group mapping and the title derived by the upload handler is
`September 8 - September 9 Birthdays`. -/
theorem C1_scenarioA :
    parse_birthday_document
        [⟨"**September 8**".toList, .noRuns⟩, ⟨"Alice".toList, .noRuns⟩,
         ⟨"Bob".toList, .noRuns⟩, ⟨"September 9".toList, .noRuns⟩,
         ⟨"Carol".toList, .noRuns⟩] =
      [("September 8".toList, ["Alice".toList, "Bob".toList]),
       ("September 9".toList, ["Carol".toList])] ∧
    deriveTitle
        (parse_birthday_document
          [⟨"**September 8**".toList, .noRuns⟩, ⟨"Alice".toList, .noRuns⟩,
           ⟨"Bob".toList, .noRuns⟩, ⟨"September 9".toList, .noRuns⟩,
           ⟨"Carol".toList, .noRuns⟩]) =
      "September 8 - September 9 Birthdays".toList := by
  decide

/-- Claim C2 (code bug): for the bold-led line `**September 8**`, the label
regex pattern `\**(.*?)\**` always captures the empty string, so the extracted
label is empty and the line is dropped from the items instead of becoming
a date heading labelled `September 8`. -/
theorem C2_bold_label_always_empty :
    classifyLabel ⟨"**September 8**".toList, .boldTrue⟩
        (normalizeText "**September 8**".toList) = [] ∧
      classifyItem ⟨"**September 8**".toList, .boldTrue⟩ = none := by
  decide

/-- Claim C5 counterexample: the bold-led line `Hello` is non-blank, is
treated as a date candidate (the bold test is always truthy), extracts the
empty label and is discarded — a third outcome beside "date" and "name". -/
theorem C5_counterexample :
    normalizeText "Hello".toList ≠ [] ∧
      classifyItem ⟨"Hello".toList, .boldTrue⟩ = none := by
  decide

/-! ### Normalization structure -/

theorem collapseInvAux_not_inv :
    ∀ (b : Bool) (l : List Char) (c : Char), c ∈ collapseInvAux b l →
      isInvisible c = false
  | _, [], _, hc => by cases hc
  | b, a :: l, c, hc => by
    unfold collapseInvAux at hc
    by_cases ha : isInvisible a = true
    · rw [if_pos ha] at hc
      cases b with
      | true =>
        rw [if_pos rfl] at hc
        exact collapseInvAux_not_inv true l c hc
      | false =>
        rw [if_neg (by simp)] at hc
        rcases List.mem_cons.mp hc with rfl | h
        · decide
        · exact collapseInvAux_not_inv true l c h
    · rw [if_neg ha] at hc
      rcases List.mem_cons.mp hc with rfl | h
      · simpa using ha
      · exact collapseInvAux_not_inv false l c h

theorem mem_of_getLast? {l : List Char} {c : Char} (h : l.getLast? = some c) :
    c ∈ l := by
  rw [← List.head?_reverse] at h
  have hm : c ∈ l.reverse := by
    cases hr : l.reverse with
    | nil => rw [hr] at h; cases h
    | cons b r' =>
      rw [hr] at h
      injection h with h'
      rw [← h']
      exact List.mem_cons_self _ _
  exact List.mem_reverse.mp hm

theorem wordsAux_mem_props :
    ∀ (l acc : List Char), (∀ c ∈ acc, pyIsSpace c = false) →
      ∀ tok ∈ wordsAux l acc,
        tok ≠ [] ∧ ∀ c ∈ tok, pyIsSpace c = false ∧ (c ∈ l ∨ c ∈ acc) := by
  intro l
  induction l with
  | nil =>
    intro acc hacc tok htok
    unfold wordsAux at htok
    by_cases he : acc.isEmpty
    · rw [if_pos he] at htok; cases htok
    · rw [if_neg he] at htok
      rcases List.mem_cons.mp htok with rfl | hcontra
      · refine ⟨by simpa using fun hn => he (by simp [hn]), ?_⟩
        intro c hc
        have hc' : c ∈ acc := List.mem_reverse.mp hc
        exact ⟨hacc c hc', Or.inr hc'⟩
      · cases hcontra
  | cons a l ih =>
    intro acc hacc tok htok
    unfold wordsAux at htok
    by_cases ha : pyIsSpace a = true
    · rw [if_pos ha] at htok
      by_cases he : acc.isEmpty
      · rw [if_pos he] at htok
        obtain ⟨h1, h2⟩ := ih [] (by intro c hc; cases hc) tok htok
        refine ⟨h1, fun c hc => ?_⟩
        obtain ⟨hws, hor⟩ := h2 c hc
        rcases hor with h | h
        · exact ⟨hws, Or.inl (List.mem_cons_of_mem _ h)⟩
        · cases h
      · rw [if_neg he] at htok
        rcases List.mem_cons.mp htok with rfl | h
        · refine ⟨by simpa using fun hn => he (by simp [hn]), ?_⟩
          intro c hc
          have hc' : c ∈ acc := List.mem_reverse.mp hc
          exact ⟨hacc c hc', Or.inr hc'⟩
        · obtain ⟨h1, h2⟩ := ih [] (by intro c hc; cases hc) tok h
          refine ⟨h1, fun c hc => ?_⟩
          obtain ⟨hws, hor⟩ := h2 c hc
          rcases hor with hor | hor
          · exact ⟨hws, Or.inl (List.mem_cons_of_mem _ hor)⟩
          · cases hor
    · rw [if_neg ha] at htok
      have hacc' : ∀ c ∈ a :: acc, pyIsSpace c = false := by
        intro c hc
        rcases List.mem_cons.mp hc with rfl | h
        · exact Bool.not_eq_true _ ▸ ha
        · exact hacc c h
      obtain ⟨h1, h2⟩ := ih (a :: acc) hacc' tok htok
      refine ⟨h1, fun c hc => ?_⟩
      obtain ⟨hws, hor⟩ := h2 c hc
      rcases hor with h | h
      · exact ⟨hws, Or.inl (List.mem_cons_of_mem _ h)⟩
      · rcases List.mem_cons.mp h with rfl | h'
        · exact ⟨hws, Or.inl (List.mem_cons_self _ _)⟩
        · exact ⟨hws, Or.inr h'⟩

theorem wordsOf_props (l : List Char) :
    ∀ tok ∈ wordsOf l, tok ≠ [] ∧ ∀ c ∈ tok, pyIsSpace c = false ∧ c ∈ l := by
  intro tok htok
  obtain ⟨h1, h2⟩ := wordsAux_mem_props l [] (by intro c hc; cases hc) tok htok
  refine ⟨h1, fun c hc => ?_⟩
  obtain ⟨hws, hor⟩ := h2 c hc
  rcases hor with h | h
  · exact ⟨hws, h⟩
  · cases h

theorem ndw_token_append {t : List Char} (r : List Char)
    (ht : ∀ c ∈ t, pyIsSpace c = false) (hr : noDoubleWs r = true) :
    noDoubleWs (t ++ r) = true := by
  induction t with
  | nil => simpa using hr
  | cons a t ih =>
    have ha : pyIsSpace a = false := ht a (List.mem_cons_self _ _)
    have ih' : noDoubleWs (t ++ r) = true :=
      ih (fun c hc => ht c (List.mem_cons_of_mem _ hc))
    rw [List.cons_append]
    cases htr : t ++ r with
    | nil => rfl
    | cons b rest =>
      unfold noDoubleWs
      rw [← htr, ih', ha]
      simp

theorem noDoubleWs_of_all_nonws {t : List Char}
    (ht : ∀ c ∈ t, pyIsSpace c = false) : noDoubleWs t = true := by
  have := ndw_token_append [] ht rfl
  simpa using this

theorem pyJoin_cons_cons (sep x y : List Char) (rest : List (List Char)) :
    pyJoin sep (x :: y :: rest) = x ++ sep ++ pyJoin sep (y :: rest) := rfl

theorem pyJoin_cons_ne_nil {x : List Char} (toks : List (List Char)) (hx : x ≠ []) :
    pyJoin [' '] (x :: toks) ≠ [] := by
  cases toks with
  | nil => simpa [pyJoin] using hx
  | cons y rest =>
    unfold pyJoin
    intro h
    exact hx (List.append_eq_nil.mp (List.append_eq_nil.mp h).1).1

theorem pyJoin_space_props (toks : List (List Char))
    (h : ∀ tok ∈ toks, tok ≠ [] ∧ ∀ c ∈ tok, pyIsSpace c = false) :
    noDoubleWs (pyJoin [' '] toks) = true ∧
      (∀ c, (pyJoin [' '] toks).head? = some c → pyIsSpace c = false) ∧
      (∀ c, (pyJoin [' '] toks).getLast? = some c → pyIsSpace c = false) ∧
      (∀ c ∈ pyJoin [' '] toks, c = ' ' ∨ ∃ tok ∈ toks, c ∈ tok) := by
  induction toks with
  | nil =>
    refine ⟨rfl, ?_, ?_, ?_⟩ <;> intro c hc <;> cases hc
  | cons x toks ih =>
    obtain ⟨hx, hxc⟩ := h x (List.mem_cons_self _ _)
    cases toks with
    | nil =>
      have hjoin : pyJoin [' '] [x] = x := by unfold pyJoin; rfl
      rw [hjoin]
      refine ⟨noDoubleWs_of_all_nonws hxc, ?_, ?_, ?_⟩
      · intro c hc
        cases x with
        | nil => cases hc
        | cons a x' => injection hc with h'; exact hxc c (h' ▸ List.mem_cons_self _ _)
      · intro c hc
        exact hxc c (mem_of_getLast? hc)
      · intro c hc
        exact Or.inr ⟨x, List.mem_cons_self _ _, hc⟩
    | cons y rest =>
      have h' : ∀ tok ∈ y :: rest, tok ≠ [] ∧ ∀ c ∈ tok, pyIsSpace c = false :=
        fun tok htok => h tok (List.mem_cons_of_mem _ htok)
      obtain ⟨ih1, ih2, ih3, ih4⟩ := ih h'
      have hy : y ≠ [] := (h' y (List.mem_cons_self _ _)).1
      have hr_ne : pyJoin [' '] (y :: rest) ≠ [] := pyJoin_cons_ne_nil rest hy
      have hjoin : pyJoin [' '] (x :: y :: rest) =
          x ++ ' ' :: pyJoin [' '] (y :: rest) := by
        rw [pyJoin_cons_cons]
        simp
      rw [hjoin]
      have hspace_cons : noDoubleWs (' ' :: pyJoin [' '] (y :: rest)) = true := by
        cases hj : pyJoin [' '] (y :: rest) with
        | nil => exact absurd hj hr_ne
        | cons b rest' =>
          unfold noDoubleWs
          have hb : pyIsSpace b = false := ih2 b (by rw [hj]; rfl)
          rw [← hj, ih1, hb]
          simp
      refine ⟨ndw_token_append _ hxc hspace_cons, ?_, ?_, ?_⟩
      · intro c hc
        cases x with
        | nil => exact absurd rfl hx
        | cons a x' =>
          rw [List.cons_append] at hc
          injection hc with h''
          exact hxc c (h'' ▸ List.mem_cons_self _ _)
      · intro c hc
        rw [List.getLast?_append_of_ne_nil _ (by simp)] at hc
        have : (' ' :: pyJoin [' '] (y :: rest)).getLast? =
            (pyJoin [' '] (y :: rest)).getLast? := by
          rw [show ' ' :: pyJoin [' '] (y :: rest) = [' '] ++ pyJoin [' '] (y :: rest)
            from rfl]
          exact List.getLast?_append_of_ne_nil _ hr_ne
        rw [this] at hc
        exact ih3 c hc
      · intro c hc
        rcases List.mem_append.mp hc with h1 | h1
        · exact Or.inr ⟨x, List.mem_cons_self _ _, h1⟩
        · rcases List.mem_cons.mp h1 with rfl | h2
          · exact Or.inl rfl
          · rcases ih4 c h2 with h3 | ⟨tok, htok, hctok⟩
            · exact Or.inl h3
            · exact Or.inr ⟨tok, List.mem_cons_of_mem _ htok, hctok⟩

theorem pyStrip_eq_self {l : List Char}
    (h1 : ∀ c, l.head? = some c → pyIsSpace c = false)
    (h2 : ∀ c, l.getLast? = some c → pyIsSpace c = false) : pyStrip l = l := by
  cases l with
  | nil => rfl
  | cons a l' =>
    unfold pyStrip
    rw [List.dropWhile_cons, h1 a rfl]
    simp only [Bool.false_eq_true, if_false]
    obtain ⟨b, r', hr⟩ : ∃ b r', (a :: l').reverse = b :: r' := by
      cases hrev : (a :: l').reverse with
      | nil =>
        have := congrArg List.length hrev
        simp at this
      | cons b r' => exact ⟨b, r', rfl⟩
    have hb : pyIsSpace b = false := by
      apply h2
      rw [← List.head?_reverse, hr]
      rfl
    rw [hr, List.dropWhile_cons, hb]
    simp only [Bool.false_eq_true, if_false]
    rw [← hr, List.reverse_reverse]

theorem normalizeText_eq_join (text : List Char) :
    normalizeText text = pyJoin [' '] (wordsOf (collapseInvisible text)) := by
  unfold normalizeText
  by_cases he : text.isEmpty
  · rw [if_pos he]
    have : text = [] := by cases text with
      | nil => rfl
      | cons a l => simp at he
    subst this
    rfl
  · rw [if_neg he]
    have htoks : ∀ tok ∈ wordsOf (collapseInvisible text),
        tok ≠ [] ∧ ∀ c ∈ tok, pyIsSpace c = false := by
      intro tok htok
      obtain ⟨h1, h2⟩ := wordsOf_props (collapseInvisible text) tok htok
      exact ⟨h1, fun c hc => (h2 c hc).1⟩
    obtain ⟨_, hhead, hlast, _⟩ := pyJoin_space_props _ htoks
    exact pyStrip_eq_self hhead hlast

/-- Claim C7: for every input string, the normalized result contains no
invisible characters, no two consecutive whitespace characters, and no
leading or trailing whitespace. -/
theorem C7_normalize_output_clean (text : List Char) :
    (normalizeText text).all (fun c => !isInvisible c) = true ∧
      noDoubleWs (normalizeText text) = true ∧
      (normalizeText text).head?.all (fun c => !pyIsSpace c) = true ∧
      (normalizeText text).getLast?.all (fun c => !pyIsSpace c) = true := by
  rw [normalizeText_eq_join]
  have htoks : ∀ tok ∈ wordsOf (collapseInvisible text),
      tok ≠ [] ∧ ∀ c ∈ tok, pyIsSpace c = false := by
    intro tok htok
    obtain ⟨h1, h2⟩ := wordsOf_props (collapseInvisible text) tok htok
    exact ⟨h1, fun c hc => (h2 c hc).1⟩
  obtain ⟨hndw, hhead, hlast, hprov⟩ := pyJoin_space_props _ htoks
  refine ⟨?_, hndw, ?_, ?_⟩
  · rw [List.all_eq_true]
    intro c hc
    rcases hprov c hc with rfl | ⟨tok, htok, hctok⟩
    · decide
    · obtain ⟨_, h2⟩ := wordsOf_props (collapseInvisible text) tok htok
      have : c ∈ collapseInvisible text := (h2 c hctok).2
      simp [collapseInvAux_not_inv false text c this]
  · cases hh : (pyJoin [' '] (wordsOf (collapseInvisible text))).head? with
    | none => rfl
    | some c => simp [Option.all, hhead c hh]
  · cases hh : (pyJoin [' '] (wordsOf (collapseInvisible text))).getLast? with
    | none => rfl
    | some c => simp [Option.all, hlast c hh]

/-! ### Idempotence of normalization -/

theorem wordsAux_nil (acc : List Char) :
    wordsAux [] acc = if acc.isEmpty then [] else [acc.reverse] := rfl

theorem wordsAux_cons_nonws {c : Char} (cs acc : List Char)
    (hc : pyIsSpace c = false) : wordsAux (c :: cs) acc = wordsAux cs (c :: acc) := by
  conv_lhs => rw [wordsAux]
  rw [hc]
  simp

theorem wordsAux_cons_ws_acc {c : Char} (cs acc : List Char)
    (hc : pyIsSpace c = true) (hacc : acc.isEmpty = false) :
    wordsAux (c :: cs) acc = acc.reverse :: wordsAux cs [] := by
  conv_lhs => rw [wordsAux]
  rw [hc, hacc]
  simp

theorem wordsAux_append_token :
    ∀ (tok l acc : List Char), (∀ c ∈ tok, pyIsSpace c = false) →
      wordsAux (tok ++ l) acc = wordsAux l (tok.reverse ++ acc)
  | [], l, acc, _ => by simp
  | c :: tok, l, acc, h => by
    have hc : pyIsSpace c = false := h c (List.mem_cons_self _ _)
    rw [List.cons_append, wordsAux_cons_nonws _ _ hc,
      wordsAux_append_token tok l (c :: acc)
        (fun c' hc' => h c' (List.mem_cons_of_mem _ hc'))]
    congr 1
    simp

theorem reverse_isEmpty_false {x : List Char} (hx : x ≠ []) :
    x.reverse.isEmpty = false := by
  cases hx' : x.reverse with
  | nil => exact absurd (by simpa using hx') hx
  | cons b r => rfl

theorem wordsOf_pyJoin :
    ∀ (toks : List (List Char)),
      (∀ tok ∈ toks, tok ≠ [] ∧ ∀ c ∈ tok, pyIsSpace c = false) →
      wordsOf (pyJoin [' '] toks) = toks
  | [], _ => rfl
  | [x], h => by
    obtain ⟨hx, hxc⟩ := h x (List.mem_cons_self _ _)
    show wordsAux (pyJoin [' '] [x]) [] = [x]
    rw [show pyJoin [' '] [x] = x from rfl,
      show wordsAux x [] = wordsAux (x ++ []) [] from by rw [List.append_nil],
      wordsAux_append_token x [] [] hxc, wordsAux_nil, List.append_nil,
      reverse_isEmpty_false hx]
    simp
  | x :: y :: rest, h => by
    obtain ⟨hx, hxc⟩ := h x (List.mem_cons_self _ _)
    show wordsAux (pyJoin [' '] (x :: y :: rest)) [] = x :: y :: rest
    rw [pyJoin_cons_cons, List.append_assoc,
      wordsAux_append_token x ([' '] ++ pyJoin [' '] (y :: rest)) [] hxc,
      List.append_nil,
      show [' '] ++ pyJoin [' '] (y :: rest) = ' ' :: pyJoin [' '] (y :: rest) from rfl,
      wordsAux_cons_ws_acc _ _ (by decide) (reverse_isEmpty_false hx),
      List.reverse_reverse]
    have ih := wordsOf_pyJoin (y :: rest)
      (fun tok htok => h tok (List.mem_cons_of_mem _ htok))
    unfold wordsOf at ih
    rw [ih]

theorem collapseInvAux_eq_self :
    ∀ (b : Bool) (l : List Char), (∀ c ∈ l, isInvisible c = false) →
      collapseInvAux b l = l
  | _, [], _ => rfl
  | b, a :: l, h => by
    unfold collapseInvAux
    rw [if_neg (by rw [h a (List.mem_cons_self _ _)]; simp)]
    rw [collapseInvAux_eq_self false l (fun c hc => h c (List.mem_cons_of_mem _ hc))]

theorem collapseInvisible_eq_self {l : List Char}
    (h : ∀ c ∈ l, isInvisible c = false) : collapseInvisible l = l :=
  collapseInvAux_eq_self false l h

theorem normalizeText_idem (text : List Char) :
    normalizeText (normalizeText text) = normalizeText text := by
  have htoks : ∀ tok ∈ wordsOf (collapseInvisible text),
      tok ≠ [] ∧ ∀ c ∈ tok, pyIsSpace c = false := by
    intro tok htok
    obtain ⟨h1, h2⟩ := wordsOf_props (collapseInvisible text) tok htok
    exact ⟨h1, fun c hc => (h2 c hc).1⟩
  obtain ⟨_, _, _, hprov⟩ := pyJoin_space_props _ htoks
  have hnoinv : ∀ c ∈ pyJoin [' '] (wordsOf (collapseInvisible text)),
      isInvisible c = false := by
    intro c hc
    rcases hprov c hc with rfl | ⟨tok, htok, hctok⟩
    · decide
    · obtain ⟨_, h2⟩ := wordsOf_props (collapseInvisible text) tok htok
      exact collapseInvAux_not_inv false text c (h2 c hctok).2
  rw [normalizeText_eq_join text, normalizeText_eq_join
    (pyJoin [' '] (wordsOf (collapseInvisible text))),
    collapseInvisible_eq_self hnoinv, wordsOf_pyJoin _ htoks]

/-! ### Non-empty labels -/

theorem classifyItem_date_label_ne_nil {line : Line} {t l : List Char}
    (h : classifyItem line = some (t, some l)) : l ≠ [] := by
  simp only [classifyItem] at h
  split at h
  · exact absurd h (by simp)
  · split at h
    · next hcond =>
      rw [Bool.and_eq_true, Bool.not_eq_true'] at hcond
      injection h with h'
      injection h' with h1 h2
      injection h2 with h3
      intro hcontra
      rw [hcontra] at h3
      rw [h3] at hcond
      simp at hcond
    · split at h
      · split at h
        · exact absurd h (by simp)
        · next hlab =>
          injection h with h'
          injection h' with h1 h2
          injection h2 with h3
          rw [Bool.not_eq_true] at hlab
          intro hcontra
          rw [hcontra] at h3
          rw [h3] at hlab
          simp at hlab
      · injection h with h'
        injection h' with h1 h2
        cases h2

theorem mem_keys_dictSet {d : PyDict} {k k' : List Char} {v : List (List Char)}
    (h : k ∈ keys (dictSet d k' v)) : k ∈ keys d ∨ k = k' := by
  by_cases hm : k' ∈ keys d
  · rw [keys_dictSet_of_mem v hm] at h
    exact Or.inl h
  · rw [keys_dictSet_of_not_mem v hm] at h
    rcases List.mem_append.mp h with h1 | h1
    · exact Or.inl h1
    · rcases List.mem_cons.mp h1 with rfl | h2
      · exact Or.inr rfl
      · cases h2

theorem step_keys_ne_nil {st : PState} {it : Item}
    (hst : ∀ k ∈ keys st.birthdays, k ≠ [])
    (hit : ∀ l, it.2 = some l → l ≠ []) :
    ∀ k ∈ keys (step st it).birthdays, k ≠ [] := by
  obtain ⟨t, lab⟩ := it
  cases lab with
  | some l =>
    intro k hk
    have hb : (step st (t, some l)).birthdays = dictSet st.birthdays l st.leading := by
      simp [step]
    rw [hb] at hk
    rcases mem_keys_dictSet hk with h | rfl
    · exact hst k h
    · exact hit k rfl
  | none =>
    intro k hk
    cases hcur : st.current with
    | none =>
      have hb : (step st (t, none)).birthdays = st.birthdays := by simp [step, hcur]
      rw [hb] at hk
      exact hst k hk
    | some c =>
      have hb : (step st (t, none)).birthdays = dictExtend st.birthdays c [t] := by
        simp [step, hcur, dictAppend_eq_dictExtend]
      rw [hb, keys_dictExtend] at hk
      exact hst k hk

theorem foldl_keys_ne_nil (items : List Item) :
    ∀ (st : PState), (∀ k ∈ keys st.birthdays, k ≠ []) →
      (∀ it ∈ items, ∀ l, it.2 = some l → l ≠ []) →
      ∀ k ∈ keys (items.foldl step st).birthdays, k ≠ [] := by
  induction items with
  | nil => intro st hst _; exact hst
  | cons it items ih =>
    intro st hst hall
    rw [List.foldl_cons]
    exact ih _ (step_keys_ne_nil hst (hall it (List.mem_cons_self _ _)))
      (fun it' h' => hall it' (List.mem_cons_of_mem _ h'))

theorem pass2_keys_ne_nil (items : List Item)
    (hall : ∀ it ∈ items, ∀ l, it.2 = some l → l ≠ []) :
    ∀ k ∈ keys (pass2 items), k ≠ [] := by
  simp only [pass2]
  split
  · rw [keys_dictExtend]
    exact foldl_keys_ne_nil items _ (fun k hk => absurd hk (by simp [keys])) hall
  · exact foldl_keys_ne_nil items _ (fun k hk => absurd hk (by simp [keys])) hall

/-- Claim C8: every key of the mapping produced by the parser is a non-empty
string — a date line whose extracted label is empty is never recorded
(both the `_is_date_line_simple` branch and the `if label:` guard refuse
empty labels). -/
theorem C8_keys_nonempty (lines : List Line) :
    (keys (parse_birthday_document lines)).all (fun k => !k.isEmpty) = true := by
  rw [List.all_eq_true]
  intro k hk
  have hne : k ≠ [] := by
    refine pass2_keys_ne_nil (lines.filterMap classifyItem) ?_ k hk
    intro it hit l hl
    obtain ⟨line, _, hcl⟩ := List.mem_filterMap.mp hit
    obtain ⟨t2, lab2⟩ := it
    simp only at hl
    subst hl
    exact classifyItem_date_label_ne_nil hcl
  simpa using hne

/-! ### Classification outcome analysis -/

theorem isDigit_not_ws {c : Char} (h : c.isDigit = true) : pyIsSpace c = false := by
  by_contra hws
  have hmem : c ∈ wsChars := by
    have hws' : pyIsSpace c = true := by simpa using hws
    unfold pyIsSpace at hws'
    simpa using hws'
  fin_cases hmem <;> exact absurd h (by decide)

theorem isDigit_not_star {c : Char} (h : c.isDigit = true) : (c == '*') = false := by
  cases hc : c == '*' with
  | false => rfl
  | true =>
    have : c = '*' := by simpa using hc
    rw [this] at h
    exact absurd h (by decide)

theorem is_date_line_tokens {text : List Char} (h : is_date_line text = true) :
    ∃ a b r, subTokens text = a :: b :: r := by
  unfold is_date_line at h
  split at h
  · next a b r heq => exact ⟨a, b, r, heq⟩
  · cases h

theorem tokenLabel_ne_nil {text : List Char} (h : is_date_line text = true) :
    tokenLabel text ≠ [] := by
  obtain ⟨a, b, r, heq⟩ := is_date_line_tokens h
  unfold tokenLabel
  rw [heq]
  simp

theorem startDay_some_has_digit : ∀ (pre rest g0 : List Char),
    startDay pre rest = some g0 → ∃ c ∈ g0, c.isDigit = true
  | _, [], _, h => by cases h
  | pre, [d1], g0, h => by
    simp only [startDay] at h
    split at h
    · next hd =>
      injection h with hg
      exact ⟨d1, by rw [← hg]; simp, hd⟩
    · cases h
  | pre, d1 :: d2 :: r6, g0, h => by
    simp only [startDay] at h
    split at h
    · next hd =>
      split at h
      · injection h with hg
        exact ⟨d1, by rw [← hg]; simp, hd⟩
      · injection h with hg
        exact ⟨d1, by rw [← hg]; simp, hd⟩
    · cases h

theorem matchStart_some_has_digit {text g0 : List Char}
    (h : matchStart text = some g0) : ∃ c ∈ g0, c.isDigit = true := by
  simp only [matchStart] at h
  obtain ⟨m, _, hf⟩ := List.exists_of_findSome?_eq_some h
  split at hf
  · split at hf
    · cases hf
    · exact startDay_some_has_digit _ _ _ hf
  · cases hf

theorem mem_pyStrip {c : Char} {l : List Char} (hc : c ∈ l)
    (hws : pyIsSpace c = false) : c ∈ pyStrip l := by
  unfold pyStrip
  exact List.mem_reverse.mpr
    (mem_dropWhile (List.mem_reverse.mpr (mem_dropWhile hc hws)) hws)

theorem mem_subStripStars {c : Char} {l : List Char} (hc : c ∈ l)
    (hws : pyIsSpace c = false) (hstar : (c == '*') = false) :
    c ∈ subStripStars l := by
  have step2 : ∀ {s1 : List Char}, c ∈ s1 →
      c ∈ (if s1.reverse.head? = some '*' then
          ((s1.reverse.dropWhile (fun c => c == '*')).dropWhile pyIsSpace).reverse
        else s1) := by
    intro s1 h1
    split
    · exact List.mem_reverse.mpr
        (mem_dropWhile (mem_dropWhile (List.mem_reverse.mpr h1) hstar) hws)
    · exact h1
  have hs1 : c ∈ (if (l.dropWhile pyIsSpace).head? = some '*' then
      ((l.dropWhile pyIsSpace).dropWhile (fun c => c == '*')).dropWhile pyIsSpace
    else l) := by
    split
    · exact mem_dropWhile (mem_dropWhile (mem_dropWhile hc hws) hstar) hws
    · exact hc
  exact step2 hs1

theorem subStripStars_strip_ne_nil {g : List Char} {c : Char} (hc : c ∈ g)
    (hws : pyIsSpace c = false) (hstar : (c == '*') = false) :
    pyStrip (subStripStars g) ≠ [] :=
  List.ne_nil_of_mem (mem_pyStrip (mem_subStripStars hc hws hstar) hws)

theorem classifyLabel_ne_nil_of_not_bold {line : Line} {text : List Char}
    (hfrb : firstRunBold line = false) (htext : text ≠ []) :
    classifyLabel line text ≠ [] := by
  unfold classifyLabel
  rw [hfrb]
  simp only [Bool.false_eq_true, if_false]
  by_cases hdl : is_date_line text = true
  · rw [if_pos hdl]
    exact tokenLabel_ne_nil hdl
  · rw [if_neg hdl]
    cases hms : matchStart text with
    | none => exact htext
    | some g0 =>
      obtain ⟨c, hcg, hdig⟩ := matchStart_some_has_digit hms
      exact subStripStars_strip_ne_nil hcg (isDigit_not_ws hdig) (isDigit_not_star hdig)

/-- Claim C5 (amended): a non-blank line has one of three outcomes — it is
recorded as a date item with a non-empty label, recorded as a name item
(the default when no date rule matches), or, exactly in the bold-led case
that escaped `_is_date_line_simple`, discarded because the extracted label
is always empty.  Classification is a total function, so it never raises. -/
theorem C5_classification_outcomes (line : Line)
    (h : normalizeText line.text ≠ []) :
    (∃ l, classifyItem line = some (normalizeText line.text, some l) ∧ l ≠ []) ∨
      classifyItem line = some (normalizeText line.text, none) ∨
      (firstRunBold line = true ∧ classifyItem line = none) := by
  have hne : (normalizeText line.text).isEmpty = false := by
    cases hn : normalizeText line.text with
    | nil => exact absurd hn h
    | cons a l => rfl
  simp only [classifyItem, hne, Bool.false_eq_true, if_false]
  by_cases hsb : ((is_date_line_simple (normalizeText line.text)).1 &&
      !((is_date_line_simple (normalizeText line.text)).2.getD []).isEmpty) = true
  · rw [if_pos hsb]
    left
    refine ⟨(is_date_line_simple (normalizeText line.text)).2.getD [], rfl, ?_⟩
    rw [Bool.and_eq_true, Bool.not_eq_true'] at hsb
    intro hc
    rw [hc] at hsb
    simp at hsb
  · rw [if_neg hsb]
    by_cases hdate : (firstRunBold line || matchDatePattern (normalizeText line.text) ||
        (matchStart (normalizeText line.text)).isSome ||
        is_date_line (normalizeText line.text)) = true
    · rw [if_pos hdate]
      by_cases hfrb : firstRunBold line = true
      · right; right
        refine ⟨hfrb, ?_⟩
        have hlabel : classifyLabel line (normalizeText line.text) = [] := by
          unfold classifyLabel
          rw [hfrb]
          simp [boldGroup1, normalizeText]
        rw [hlabel]
        simp
      · have hfrb' : firstRunBold line = false := by simpa using hfrb
        have hlab := classifyLabel_ne_nil_of_not_bold hfrb' h
        have hlab' : (classifyLabel line (normalizeText line.text)).isEmpty = false := by
          cases hc : classifyLabel line (normalizeText line.text) with
          | nil => exact absurd hc hlab
          | cons a l => rfl
        rw [hlab']
        simp only [Bool.false_eq_true, if_false]
        left
        exact ⟨classifyLabel line (normalizeText line.text), rfl, hlab⟩
    · rw [if_neg hdate]
      right; left
      rfl

/-- Witness for C5 (amended) at concrete inputs: the plain line `Alice` is
recorded as a name item. -/
theorem C5_classification_outcomes_witness :
    normalizeText "Alice".toList ≠ [] ∧
      ((∃ l, classifyItem ⟨"Alice".toList, .noRuns⟩ =
            some (normalizeText "Alice".toList, some l) ∧ l ≠ []) ∨
        classifyItem ⟨"Alice".toList, .noRuns⟩ =
          some (normalizeText "Alice".toList, none) ∨
        (firstRunBold ⟨"Alice".toList, .noRuns⟩ = true ∧
          classifyItem ⟨"Alice".toList, .noRuns⟩ = none)) :=
  ⟨by decide, C5_classification_outcomes _ (by decide)⟩

/-! ### The simple month-day check -/

theorem simpleLoop_some_of_mem :
    ∀ (months : List (List Char)) (t text m : List Char), m ∈ months →
      (m ++ [' ']).isPrefixOf t = true →
      (∃ c r2, (t.drop (m.length + 1)).dropWhile pyIsSpace = c :: r2 ∧ c.isDigit = true) →
      simpleLoop months t text = some (simpleLabel text)
  | [], _, _, m, hm, _, _ => by cases hm
  | m0 :: ms, t, text, m, hm, hpre, hdig => by
    simp only [simpleLoop]
    by_cases h0 : ((m0 ++ [' ']).isPrefixOf t) = true
    · rw [if_pos h0]
      cases hdrop : (t.drop (m0.length + 1)).dropWhile pyIsSpace with
      | nil =>
        have hne : m ≠ m0 := by
          intro hcontra
          obtain ⟨c, r2, hc, _⟩ := hdig
          rw [hcontra, hdrop] at hc
          cases hc
        have hm' : m ∈ ms := by
          rcases List.mem_cons.mp hm with h | h
          · exact absurd h hne
          · exact h
        exact simpleLoop_some_of_mem ms t text m hm' hpre hdig
      | cons c r2 =>
        show (if c.isDigit = true then some (simpleLabel text)
          else simpleLoop ms t text) = some (simpleLabel text)
        by_cases hc : c.isDigit = true
        · rw [if_pos hc]
        · rw [if_neg hc]
          have hne : m ≠ m0 := by
            intro hcontra
            obtain ⟨c', r2', hc', hd'⟩ := hdig
            rw [hcontra, hdrop] at hc'
            injection hc' with h1 _
            rw [← h1] at hd'
            exact hc hd'
          have hm' : m ∈ ms := by
            rcases List.mem_cons.mp hm with h | h
            · exact absurd h hne
            · exact h
          exact simpleLoop_some_of_mem ms t text m hm' hpre hdig
    · rw [if_neg h0]
      have hne : m ≠ m0 := by
        intro hcontra
        rw [hcontra] at hpre
        exact h0 hpre
      have hm' : m ∈ ms := by
        rcases List.mem_cons.mp hm with h | h
        · exact absurd h hne
        · exact h
      exact simpleLoop_some_of_mem ms t text m hm' hpre hdig

/-- Claim C6: a line whose normalized text starts with a month name or
abbreviation (case-insensitively), a space, and a one-or-two-digit day is
always classified as a date heading with a non-empty label, whatever
trailing content follows. -/
theorem C6_month_day_start_classified_date (line : Line) (m day tail : List Char)
    (hm : m ∈ MONTH_ALTS)
    (hstart : pyLower (normalizeText line.text) = m ++ ' ' :: (day ++ tail))
    (hday : day.all Char.isDigit = true)
    (hlen1 : 1 ≤ day.length) (hlen2 : day.length ≤ 2) :
    ∃ l, classifyItem line = some (normalizeText line.text, some l) ∧ l ≠ [] := by
  obtain ⟨d, day', hdaycons⟩ : ∃ d day', day = d :: day' := by
    cases day with
    | nil => simp at hlen1
    | cons d day' => exact ⟨d, day', rfl⟩
  subst hdaycons
  have hd : d.isDigit = true := by
    rw [List.all_eq_true] at hday
    exact hday d (List.mem_cons_self _ _)
  have htext_ne : normalizeText line.text ≠ [] := by
    intro hcontra
    rw [hcontra] at hstart
    cases m <;> cases hstart
  have hsplit : m ++ ' ' :: ((d :: day') ++ tail) = (m ++ [' ']) ++ ((d :: day') ++ tail) := by
    simp
  have hloop : simpleLoop MONTH_ALTS (m ++ ' ' :: ((d :: day') ++ tail))
      (normalizeText line.text) = some (simpleLabel (normalizeText line.text)) := by
    apply simpleLoop_some_of_mem MONTH_ALTS _ _ m hm
    · rw [hsplit]
      exact isPrefixOf_append_self _ _
    · refine ⟨d, day' ++ tail, ?_, hd⟩
      rw [hsplit,
        show m.length + 1 = (m ++ [' ']).length from by simp,
        List.drop_left, List.cons_append, List.dropWhile_cons, isDigit_not_ws hd]
      simp
  have hsimple : is_date_line_simple (normalizeText line.text) =
      (true, some (simpleLabel (normalizeText line.text))) := by
    simp only [is_date_line_simple]
    rw [normalizeText_idem, hstart]
    rw [show (m ++ ' ' :: ((d :: day') ++ tail)).isEmpty = false from by cases m <;> rfl]
    rw [hloop]
    rfl
  have hlab_ne : simpleLabel (normalizeText line.text) ≠ [] := by
    unfold simpleLabel
    cases hst : subTokens (normalizeText line.text) with
    | nil =>
      rw [normalizeText_idem]
      exact htext_ne
    | cons t0 rest2 =>
      cases rest2 with
      | nil =>
        rw [normalizeText_idem]
        exact htext_ne
      | cons t1 rest3 => simp
  have hlab_empty : (simpleLabel (normalizeText line.text)).isEmpty = false := by
    cases hc : simpleLabel (normalizeText line.text) with
    | nil => exact absurd hc hlab_ne
    | cons a l => rfl
  refine ⟨simpleLabel (normalizeText line.text), ?_, hlab_ne⟩
  have hne' : (normalizeText line.text).isEmpty = false := by
    cases hn : normalizeText line.text with
    | nil => exact absurd hn htext_ne
    | cons a l => rfl
  simp only [classifyItem, hne', Bool.false_eq_true, if_false, hsimple]
  rw [show ((true, some (simpleLabel (normalizeText line.text))).2.getD []).isEmpty = false
    from hlab_empty]
  rfl

/-- Witness for C6 at a concrete input: `September 8 xyz` (trailing content
after the month-day start) is classified as a date. -/
theorem C6_month_day_start_classified_date_witness :
    "september".toList ∈ MONTH_ALTS ∧
      pyLower (normalizeText "September 8 xyz".toList) =
        "september".toList ++ ' ' :: ("8".toList ++ " xyz".toList) ∧
      ∃ l, classifyItem ⟨"September 8 xyz".toList, .noRuns⟩ =
          some (normalizeText "September 8 xyz".toList, some l) ∧ l ≠ [] :=
  ⟨by decide, by decide,
    C6_month_day_start_classified_date ⟨"September 8 xyz".toList, .noRuns⟩
      "september".toList "8".toList " xyz".toList
      (by decide) (by decide) (by decide) (by decide) (by decide)⟩

/-! ### HTML generation structure -/

theorem chunk4_flatten {α : Type} : ∀ (l : List α), (chunk4 l).flatten = l
  | [] => rfl
  | [_] => rfl
  | [_, _] => rfl
  | [_, _, _] => rfl
  | a :: b :: c :: d :: rest => by
    show ([a, b, c, d] :: chunk4 rest).flatten = _
    rw [List.flatten_cons, chunk4_flatten rest]
    rfl

theorem chunk4_length {α : Type} : ∀ (l : List α), (chunk4 l).length = (l.length + 3) / 4
  | [] => by simp [chunk4]
  | [_] => by simp [chunk4]
  | [_, _] => by simp [chunk4]
  | [_, _, _] => by simp [chunk4]
  | a :: b :: c :: d :: rest => by
    show (chunk4 rest).length + 1 = _
    rw [chunk4_length rest]
    simp only [List.length_cons]
    omega

theorem chunk4_all_bound {α : Type} : ∀ (l : List α),
    (chunk4 l).all (fun ch => !ch.isEmpty && decide (ch.length ≤ 4)) = true
  | [] => rfl
  | [_] => rfl
  | [_, _] => rfl
  | [_, _, _] => rfl
  | a :: b :: c :: d :: rest => by
    show (([a, b, c, d] : List α) :: chunk4 rest).all _ = true
    rw [List.all_cons, chunk4_all_bound rest]
    rfl

theorem buildParts_eq_chunk4 (bd : PyDict) : ∀ (dates : List (List Char)),
    buildParts bd dates = ((chunk4 dates).map (rowParts bd)).flatten
  | [] => rfl
  | [a] => by simp [buildParts, chunk4, rowParts]
  | [a, b] => by simp [buildParts, chunk4, rowParts]
  | [a, b, c] => by simp [buildParts, chunk4, rowParts]
  | a :: b :: c :: d :: rest => by
    show rowOpen :: card bd a :: card bd b :: card bd c :: card bd d :: rowClose ::
        buildParts bd rest = _
    rw [buildParts_eq_chunk4 bd rest]
    show _ = ((rowParts bd [a, b, c, d]) :: (chunk4 rest).map (rowParts bd)).flatten
    rw [List.flatten_cons]
    simp [rowParts]

/-- Claim C9: the HTML generator emits the fixed no-data message exactly when
no non-empty label remains, and otherwise joins, with newlines, one row
block per chunk of four labels: the chunks partition the labels in mapping
order, there are `⌈n/4⌉` of them, each non-empty with at most four labels,
and each chunk contributes an opening row tag, one card per label (the
card holds the label and its names joined by the line-break separator, see
`card`), and a closing row tag. -/
theorem C9_generate_html_structure (bd : PyDict) :
    generate_html bd =
      (if ((keys bd).filter (fun d => !d.isEmpty)).isEmpty then noDataMessage
       else pyJoin ['\n']
         (((chunk4 ((keys bd).filter (fun d => !d.isEmpty))).map (rowParts bd)).flatten)) ∧
      (chunk4 ((keys bd).filter (fun d => !d.isEmpty))).flatten =
        (keys bd).filter (fun d => !d.isEmpty) ∧
      (chunk4 ((keys bd).filter (fun d => !d.isEmpty))).length =
        (((keys bd).filter (fun d => !d.isEmpty)).length + 3) / 4 ∧
      (chunk4 ((keys bd).filter (fun d => !d.isEmpty))).all
        (fun ch => !ch.isEmpty && decide (ch.length ≤ 4)) = true := by
  refine ⟨?_, chunk4_flatten _, chunk4_length _, chunk4_all_bound _⟩
  simp only [generate_html]
  by_cases hc : ((keys bd).filter (fun d => !d.isEmpty)).isEmpty = true
  · rw [if_pos hc, if_pos hc]
  · rw [if_neg hc, if_neg hc]
    rw [buildParts_eq_chunk4]

/-! ### Verbatim pass-through of labels and names -/

theorem card_mem_buildParts (bd : PyDict) : ∀ (dates : List (List Char)) (k : List Char),
    k ∈ dates → card bd k ∈ buildParts bd dates
  | [], k, hk => by cases hk
  | [a], k, hk => by
    rcases List.mem_singleton.mp hk with rfl
    show card bd k ∈ [rowOpen, card bd k, rowClose]
    simp
  | [a, b], k, hk => by
    show card bd k ∈ [rowOpen, card bd a, card bd b, rowClose]
    rcases List.mem_cons.mp hk with rfl | hk1
    · simp
    rcases List.mem_singleton.mp hk1 with rfl
    simp
  | [a, b, c], k, hk => by
    show card bd k ∈ [rowOpen, card bd a, card bd b, card bd c, rowClose]
    rcases List.mem_cons.mp hk with rfl | hk1
    · simp
    rcases List.mem_cons.mp hk1 with rfl | hk2
    · simp
    rcases List.mem_singleton.mp hk2 with rfl
    simp
  | a :: b :: c :: d :: rest, k, hk => by
    show card bd k ∈ rowOpen :: card bd a :: card bd b :: card bd c :: card bd d ::
      rowClose :: buildParts bd rest
    rcases List.mem_cons.mp hk with rfl | hk1
    · simp
    rcases List.mem_cons.mp hk1 with rfl | hk2
    · simp
    rcases List.mem_cons.mp hk2 with rfl | hk3
    · simp
    rcases List.mem_cons.mp hk3 with rfl | hk4
    · simp
    have hmem := card_mem_buildParts bd rest k hk4
    simp [hmem]

theorem pyJoin_decomp (sep : List Char) : ∀ (parts : List (List Char)) (x : List Char),
    x ∈ parts → ∃ u v, pyJoin sep parts = u ++ x ++ v
  | [], x, hx => by cases hx
  | [p], x, hx => by
    rcases List.mem_singleton.mp hx with rfl
    exact ⟨[], [], by simp [pyJoin]⟩
  | p :: q :: rest, x, hx => by
    rcases List.mem_cons.mp hx with rfl | hx'
    · exact ⟨[], sep ++ pyJoin sep (q :: rest), by rw [pyJoin_cons_cons]; simp⟩
    · obtain ⟨u, v, huv⟩ := pyJoin_decomp sep (q :: rest) x hx'
      exact ⟨p ++ sep ++ u, v, by rw [pyJoin_cons_cons, huv]; simp⟩

/-- Claim C10: the generator performs no escaping — every non-empty label of
the mapping, and every name of that label's group, occurs verbatim as a
contiguous substring of the generated output. -/
theorem C10_no_escaping (bd : PyDict) (k : List Char)
    (hk : k ∈ keys bd) (hne : k ≠ []) :
    (∃ u v, generate_html bd = u ++ k ++ v) ∧
      ∀ name ∈ dictGet bd k, ∃ u v, generate_html bd = u ++ name ++ v := by
  have hkd : k ∈ (keys bd).filter (fun d => !d.isEmpty) := by
    rw [List.mem_filter]
    refine ⟨hk, ?_⟩
    cases hkk : k with
    | nil => exact absurd hkk hne
    | cons a l => rfl
  have hdne : ((keys bd).filter (fun d => !d.isEmpty)).isEmpty = false := by
    cases hfl : (keys bd).filter (fun d => !d.isEmpty) with
    | nil => rw [hfl] at hkd; cases hkd
    | cons a l => rfl
  have hgen : generate_html bd =
      pyJoin ['\n'] (buildParts bd ((keys bd).filter (fun d => !d.isEmpty))) := by
    simp only [generate_html, hdne, Bool.false_eq_true, if_false]
  obtain ⟨u, v, huv⟩ := pyJoin_decomp ['\n'] _ _
    (card_mem_buildParts bd _ k hkd)
  constructor
  · refine ⟨u ++ "  <div class=\"col-md-3\">\n    <h3>".toList,
      "<br/></h3>\n    <p>".toList ++
        pyJoin " <br/> ".toList (dictGet bd k) ++ "</p>\n  </div>".toList ++ v, ?_⟩
    rw [hgen, huv]
    simp [card, List.append_assoc]
  · intro name hname
    obtain ⟨u2, v2, huv2⟩ := pyJoin_decomp " <br/> ".toList _ _ hname
    refine ⟨u ++ "  <div class=\"col-md-3\">\n    <h3>".toList ++ k ++
        "<br/></h3>\n    <p>".toList ++ u2,
      v2 ++ "</p>\n  </div>".toList ++ v, ?_⟩
    rw [hgen, huv]
    have huv2' : pyJoin [' ', '<', 'b', 'r', '/', '>', ' '] (dictGet bd k) =
        u2 ++ name ++ v2 := huv2
    simp [card, huv2', List.append_assoc]

/-- Witness for C10 at a concrete input: a label and a name containing raw
markup characters both appear verbatim in the generated page. -/
theorem C10_no_escaping_witness :
    "<Sep> 8".toList ∈ keys [("<Sep> 8".toList, ["<b>Al</b>".toList])] ∧
      "<Sep> 8".toList ≠ [] ∧
      ((∃ u v, generate_html [("<Sep> 8".toList, ["<b>Al</b>".toList])] =
          u ++ "<Sep> 8".toList ++ v) ∧
        ∀ name ∈ dictGet [("<Sep> 8".toList, ["<b>Al</b>".toList])] "<Sep> 8".toList,
          ∃ u v, generate_html [("<Sep> 8".toList, ["<b>Al</b>".toList])] =
            u ++ name ++ v) :=
  ⟨by decide, by decide,
    C10_no_escaping [("<Sep> 8".toList, ["<b>Al</b>".toList])] "<Sep> 8".toList
      (by decide) (by decide)⟩
